import Mathlib

/-!
Shallow embedding of the `finance_ibex` crate (files `src/lib.rs`,
`src/ibex_company.rs`, `src/ibex35_market.rs`).

Rust strings are modelled as `List Char`.  The `toml::Table` produced by the
parser is modelled as an association list from section keys to sections, a
section being an association list from keys to TOML values (the spec, section
6, describes the parser output as "a table of string-keyed tables of
string-keyed scalar values").  The `HashMap<String, Box<dyn Company>>` is
modelled as an association list with `HashMap::insert` replace-on-collision
semantics; its structural guarantee (distinct keys) appears as the `Nodup`
predicate on the key list.

Panics (`unwrap` on `None`, the `toml::Value` `Index` impl panicking on a
missing key) are modelled by the `none` case of `Option`-returning
extraction, surfaced as the `LoadResult.crash` outcome of the loader.  The
two `Err` branches of `load_ibex35_companies` are the `errOpen` and
`errParse` outcomes.  File reading and TOML parsing are abstracted as
parameters of the loader: `readRes : Option (List Char)` is the result of
`read_to_string` and `parse : List Char → Option Table` the TOML parser.
-/

namespace FinanceIbex

/-- Model of Rust `char::to_ascii_lowercase`: maps `A`..`Z` to `a`..`z`
and leaves every other character unchanged. -/
def lowChar (c : Char) : Char :=
  if 'A' ≤ c ∧ c ≤ 'Z' then Char.ofNat (c.toNat + 32) else c

/-- Model of Rust `str::to_ascii_lowercase` on a whole string. -/
def lowStr (s : List Char) : List Char :=
  s.map lowChar

/-- Boolean test that `p` is a prefix of `h` (used to implement substring
containment, the semantics of Rust `str::contains` with a string pattern). -/
def begWith : List Char → List Char → Bool
  | [], _ => true
  | _ :: _, [] => false
  | p :: ps, h :: hs => p == h && begWith ps hs

/-- Boolean substring containment: `hasSub hay pat` holds when `pat` occurs
contiguously inside `hay`.  This is the semantics of Rust
`String::contains(&str)`. -/
def hasSub : List Char → List Char → Bool
  | [], pat => begWith pat []
  | c :: t, pat => begWith pat (c :: t) || hasSub t pat

/-- Association-list lookup, keyed by strings.  Models both
`toml::Value::get` and `HashMap::get`. -/
def alookup {α : Type} : List (List Char × α) → List Char → Option α
  | [], _ => none
  | (k, v) :: t, q => if k = q then some v else alookup t q

/-- A scalar TOML value: either a string or something that is not a string
(integer, boolean, array, nested table ...), which `as_str` rejects. -/
inductive TomlVal where
  | vstr : List Char → TomlVal
  | other : TomlVal
deriving DecidableEq, Repr

/-- Model of `toml::Value::as_str`. -/
def TomlVal.as_str : TomlVal → Option (List Char)
  | .vstr s => some s
  | .other => none

/-- One descriptor section: a flat set of key/value pairs. -/
abbrev Sect := List (List Char × TomlVal)

/-- The parsed descriptor document: section key to section, in the parser's
iteration order. -/
abbrev Table := List (List Char × Sect)

/-- Model of the composite `table[key][k].as_str()` used by the loader.
`none` covers both panic sources of the Rust expression followed by
`unwrap`: the `Index` impl of `toml::Value` panicking when `k` is absent,
and `as_str` returning `None` when the value is not a string. -/
def getStr (sec : Sect) (k : List Char) : Option (List Char) :=
  (alookup sec k).bind TomlVal.as_str

def keyFullName : List Char := "full_name".toList
def keyTicker : List Char := "ticker".toList
def keyIsin : List Char := "isin".toList
def keyExtraId : List Char := "extra_id".toList

/-- Model of the `IbexCompany` struct of `src/ibex_company.rs`. -/
structure IbexCompany where
  full_name : Option (List Char)
  short_name : List Char
  ticker : List Char
  isin : List Char
  nif : Option (List Char)
deriving DecidableEq, Repr

/-- Constructor `IbexCompany::new` (stores the five fields verbatim; the
`map_or` calls in the source only convert `&str` to `String`). -/
def IbexCompany.new (fname : Option (List Char)) (sname ticker isin : List Char)
    (nif : Option (List Char)) : IbexCompany :=
  { full_name := fname, short_name := sname, ticker := ticker, isin := isin,
    nif := nif }

/-- Accessor `Company::name` — returns the short name. -/
def IbexCompany.name (c : IbexCompany) : List Char :=
  c.short_name

/-- Accessor `Company::extra_id` — returns the optional NIF. -/
def IbexCompany.extra_id (c : IbexCompany) : Option (List Char) :=
  c.nif

/-- Model of the `Ibex35Market` struct of `src/ibex35_market.rs`.  The
`HashMap` of constituents is an association list; the `HashMap` structural
invariant (no two entries share a key) is stated separately where needed. -/
structure Ibex35Market where
  name : List Char
  open_time : List Char
  close_time : List Char
  currency : List Char
  company_map : List (List Char × IbexCompany)
deriving DecidableEq, Repr

/-- Constructor `Ibex35Market::new`: the four metadata fields are
hard-coded; the constituent map is taken from the caller unchanged. -/
def Ibex35Market.new (company_map : List (List Char × IbexCompany)) :
    Ibex35Market :=
  { name := "BME Ibex35 Index".toList,
    open_time := "08:00:00".toList,
    close_time := "16:30:00".toList,
    currency := "euro".toList,
    company_map := company_map }

/-- Method `Market::market_name`. -/
def Ibex35Market.market_name (m : Ibex35Market) : List Char :=
  m.name

/-- Method `Market::list_tickers`: all keys of the constituent map. -/
def Ibex35Market.list_tickers (m : Ibex35Market) : List (List Char) :=
  m.company_map.map Prod.fst

/-- Method `Market::get_companies`: all values of the constituent map. -/
def Ibex35Market.get_companies (m : Ibex35Market) : List IbexCompany :=
  m.company_map.map Prod.snd

/-- Method `Market::stock_by_ticker`: exact `HashMap::get` lookup. -/
def Ibex35Market.stock_by_ticker (m : Ibex35Market) (ticker : List Char) :
    Option IbexCompany :=
  alookup m.company_map ticker

/-- Method `Market::stock_by_name`: collects every company whose
ASCII-lowercased short name contains the ASCII-lowercased query as a
substring; returns `none` when the collection is empty. -/
def Ibex35Market.stock_by_name (m : Ibex35Market) (q : List Char) :
    Option (List IbexCompany) :=
  let stocks := (m.company_map.map Prod.snd).filter
    (fun c => hasSub (lowStr c.name) (lowStr q))
  if stocks.length > 0 then some stocks else none

/-- Model of `HashMap::insert`: replaces the value stored under an existing
key, otherwise appends a fresh entry (position of entries is irrelevant, the
map is unordered). -/
def insertKV : List (List Char × IbexCompany) → List Char → IbexCompany →
    List (List Char × IbexCompany)
  | [], k, c => [(k, c)]
  | (k', c') :: t, k, c =>
    if k' = k then (k, c) :: t else (k', c') :: insertKV t k c

/-- Per-section field extraction of `load_ibex35_companies`
(`src/lib.rs` lines 66-72): `full_name` is read twice (once for the full
name, once for the short name), then `ticker`, `isin` and `extra_id`, each
through `as_str().unwrap()`.  `none` models the panic of any of those
`unwrap`s (or of the indexing itself when the key is absent). -/
def extractCompany (sec : Sect) : Option IbexCompany :=
  match getStr sec keyFullName with
  | none => none
  | some fname =>
    match getStr sec keyFullName with
    | none => none
    | some sname =>
      match getStr sec keyTicker with
      | none => none
      | some ticker =>
        match getStr sec keyIsin with
        | none => none
        | some isin =>
          match getStr sec keyExtraId with
          | none => none
          | some nif =>
            some (IbexCompany.new (some fname) sname ticker isin (some nif))

/-- The loader loop of `load_ibex35_companies`: iterates over the sections
in the parser's order, extracting a company from each and inserting it under
its ticker.  `none` models a panic while processing some section. -/
def buildMap : Table → List (List Char × IbexCompany) →
    Option (List (List Char × IbexCompany))
  | [], acc => some acc
  | (_, sec) :: t, acc =>
    match extractCompany sec with
    | none => none
    | some c => buildMap t (insertKV acc c.ticker c)

/-- Outcome of a call to `load_ibex35_companies`:
a built market, the `Err("Error opening the input file")` branch, the
`Err("Could not parse the file as a TOML table")` branch, or a panic
(which in Rust aborts instead of returning). -/
inductive LoadResult where
  | market : Ibex35Market → LoadResult
  | errOpen : LoadResult
  | errParse : LoadResult
  | crash : LoadResult
deriving DecidableEq, Repr

/-- Model of `load_ibex35_companies` (`src/lib.rs`).  `readRes` is the
result of `read_to_string` (`none` for an I/O error) and `parse` the TOML
parser (`none` for malformed text). -/
def load_ibex35_companies (readRes : Option (List Char))
    (parse : List Char → Option Table) : LoadResult :=
  match readRes with
  | none => .errOpen
  | some text =>
    match parse text with
    | none => .errParse
    | some tbl =>
      match buildMap tbl [] with
      | none => .crash
      | some mp => .market (Ibex35Market.new mp)

/-- The data-model invariant of the constituent mapping (spec section 3:
"constituents: mapping from ticker (string) to Company"): every entry is
stored under the ticker of its company. -/
def keyedByTicker (mp : List (List Char × IbexCompany)) : Prop :=
  ∀ p ∈ mp, p.1 = p.2.ticker

theorem begWith_iff (p h : List Char) : begWith p h = true ↔ ∃ r, h = p ++ r := by
  induction p generalizing h with
  | nil => simp [begWith]
  | cons a ps ih =>
    cases h with
    | nil =>
      simp [begWith]
    | cons b hs =>
      simp only [begWith, Bool.and_eq_true, beq_iff_eq, ih, List.cons_append,
        List.cons.injEq]
      constructor
      · rintro ⟨hab, r, hr⟩
        exact ⟨r, hab.symm, hr⟩
      · rintro ⟨r, hb, hr⟩
        exact ⟨hb.symm, r, hr⟩

theorem hasSub_iff (h p : List Char) :
    hasSub h p = true ↔ ∃ l r, h = l ++ p ++ r := by
  induction h with
  | nil =>
    rw [hasSub, begWith_iff]
    constructor
    · rintro ⟨r, hr⟩
      exact ⟨[], r, by simpa using hr⟩
    · rintro ⟨l, r, hlr⟩
      refine ⟨r, ?_⟩
      rcases List.append_eq_nil.mp hlr.symm with ⟨h1, h2⟩
      rcases List.append_eq_nil.mp h1 with ⟨h3, h4⟩
      simp [h2, h3, h4]
  | cons c t ih =>
    simp only [hasSub, Bool.or_eq_true, begWith_iff, ih]
    constructor
    · rintro (⟨r, hr⟩ | ⟨l, r, hlr⟩)
      · exact ⟨[], r, by simpa using hr⟩
      · exact ⟨c :: l, r, by simp [hlr]⟩
    · rintro ⟨l, r, hlr⟩
      cases l with
      | nil =>
        exact Or.inl ⟨r, by simpa using hlr⟩
      | cons c' l' =>
        simp only [List.cons_append, List.cons.injEq] at hlr
        exact Or.inr ⟨l', r, hlr.2⟩

theorem alookup_insertKV (mp : List (List Char × IbexCompany)) (k : List Char)
    (c : IbexCompany) (q : List Char) :
    alookup (insertKV mp k c) q = if q = k then some c else alookup mp q := by
  induction mp with
  | nil =>
    simp only [insertKV, alookup]
    rcases eq_or_ne q k with hq | hq
    · simp [hq]
    · simp [hq, Ne.symm hq]
  | cons p t ih =>
    obtain ⟨k', c'⟩ := p
    rcases eq_or_ne k' k with hk | hk
    · subst hk
      simp only [insertKV, if_pos rfl, alookup]
      rcases eq_or_ne q k' with hq | hq
      · simp [hq]
      · simp [hq, Ne.symm hq]
    · simp only [insertKV, if_neg hk, alookup, ih]
      rcases eq_or_ne q k' with hq | hq
      · subst hq
        simp [hk, Ne.symm hk]
      · simp [Ne.symm hq]

theorem insertKV_cons_eq (t : List (List Char × IbexCompany)) (k' : List Char)
    (c' : IbexCompany) (k : List Char) (c : IbexCompany) (h : k' = k) :
    insertKV ((k', c') :: t) k c = (k, c) :: t := by
  simp [insertKV, h]

theorem insertKV_cons_ne (t : List (List Char × IbexCompany)) (k' : List Char)
    (c' : IbexCompany) (k : List Char) (c : IbexCompany) (h : k' ≠ k) :
    insertKV ((k', c') :: t) k c = (k', c') :: insertKV t k c := by
  simp [insertKV, h]

theorem mem_keys_insertKV (mp : List (List Char × IbexCompany)) (k : List Char)
    (c : IbexCompany) (q : List Char) :
    q ∈ (insertKV mp k c).map Prod.fst ↔ q ∈ mp.map Prod.fst ∨ q = k := by
  induction mp with
  | nil => simp [insertKV]
  | cons p t ih =>
    obtain ⟨k', c'⟩ := p
    rcases eq_or_ne k' k with hk | hk
    · subst hk
      rw [insertKV_cons_eq t k' c' k' c rfl]
      simp only [List.map_cons, List.mem_cons]
      tauto
    · rw [insertKV_cons_ne t k' c' k c hk]
      simp only [List.map_cons, List.mem_cons, ih]
      tauto

theorem nodup_keys_insertKV (mp : List (List Char × IbexCompany)) (k : List Char)
    (c : IbexCompany) (hnd : (mp.map Prod.fst).Nodup) :
    ((insertKV mp k c).map Prod.fst).Nodup := by
  induction mp with
  | nil => simp [insertKV]
  | cons p t ih =>
    obtain ⟨k', c'⟩ := p
    simp only [List.map_cons, List.nodup_cons] at hnd
    rcases eq_or_ne k' k with hk | hk
    · subst hk
      rw [insertKV_cons_eq t k' c' k' c rfl]
      simp only [List.map_cons, List.nodup_cons]
      exact ⟨hnd.1, hnd.2⟩
    · rw [insertKV_cons_ne t k' c' k c hk]
      simp only [List.map_cons, List.nodup_cons, mem_keys_insertKV]
      exact ⟨by rintro (h | h); exacts [hnd.1 h, hk h], ih hnd.2⟩

theorem keyed_insertKV (mp : List (List Char × IbexCompany)) (c : IbexCompany)
    (hkd : keyedByTicker mp) : keyedByTicker (insertKV mp c.ticker c) := by
  induction mp with
  | nil =>
    intro p hp
    simp only [insertKV, List.mem_singleton] at hp
    simp [hp]
  | cons q t ih =>
    obtain ⟨k', c'⟩ := q
    have hkd' : keyedByTicker t := fun p hp => hkd p (List.mem_cons_of_mem _ hp)
    rcases eq_or_ne k' c.ticker with hk | hk
    · intro p hp
      rw [insertKV_cons_eq t k' c' c.ticker c hk] at hp
      rcases List.mem_cons.mp hp with hp' | hp'
      · simp [hp']
      · exact hkd' p hp'
    · intro p hp
      rw [insertKV_cons_ne t k' c' c.ticker c hk] at hp
      rcases List.mem_cons.mp hp with hp' | hp'
      · exact hkd p (by simp [hp'])
      · exact ih hkd' p hp'

theorem mem_values_insertKV (mp : List (List Char × IbexCompany)) (k : List Char)
    (c d : IbexCompany) (hd : d ∈ (insertKV mp k c).map Prod.snd) :
    d = c ∨ d ∈ mp.map Prod.snd := by
  induction mp with
  | nil =>
    simp only [insertKV, List.map_cons, List.map_nil, List.mem_singleton] at hd
    exact Or.inl hd
  | cons p t ih =>
    obtain ⟨k', c'⟩ := p
    rcases eq_or_ne k' k with hk | hk
    · subst hk
      rw [insertKV_cons_eq t k' c' k' c rfl] at hd
      simp only [List.map_cons, List.mem_cons] at hd
      rcases hd with hd' | hd'
      · exact Or.inl hd'
      · exact Or.inr (by rw [List.map_cons]; exact List.mem_cons_of_mem _ hd')
    · rw [insertKV_cons_ne t k' c' k c hk] at hd
      simp only [List.map_cons, List.mem_cons] at hd
      rcases hd with hd' | hd'
      · exact Or.inr (by rw [List.map_cons, hd']; exact List.mem_cons_self _ _)
      · rcases ih hd' with h | h
        · exact Or.inl h
        · exact Or.inr (List.mem_cons_of_mem _ h)

theorem alookup_eq_some_of_mem (mp : List (List Char × IbexCompany))
    (c : IbexCompany) (hnd : (mp.map Prod.fst).Nodup) (hkd : keyedByTicker mp)
    (hc : c ∈ mp.map Prod.snd) : alookup mp c.ticker = some c := by
  induction mp with
  | nil => simp at hc
  | cons p t ih =>
    obtain ⟨k', c'⟩ := p
    have hk' : k' = c'.ticker := hkd (k', c') (List.mem_cons_self _ _)
    simp only [List.map_cons, List.nodup_cons] at hnd
    simp only [List.map_cons, List.mem_cons] at hc
    rcases hc with hc | hc
    · subst hc
      simp [alookup, hk']
    · have hkd' : keyedByTicker t := fun p hp => hkd p (List.mem_cons_of_mem _ hp)
      have hrec := ih hnd.2 hkd' hc
      have hne : k' ≠ c.ticker := by
        intro he
        apply hnd.1
        have : (c.ticker, c) ∈ t := by
          obtain ⟨p, hp, hp2⟩ := List.mem_map.mp hc
          have := hkd' p hp
          obtain ⟨pk, pc⟩ := p
          simp only at hp2 this
          subst hp2; subst this
          exact hp
        rw [he]
        exact List.mem_map.mpr ⟨(c.ticker, c), this, rfl⟩
      simp [alookup, hne, hrec]

theorem alookup_eq_none_of_not_mem (mp : List (List Char × IbexCompany))
    (q : List Char) (hq : ∀ k ∈ mp.map Prod.fst, q ≠ k) : alookup mp q = none := by
  induction mp with
  | nil => simp [alookup]
  | cons p t ih =>
    obtain ⟨k', c'⟩ := p
    have h1 : q ≠ k' := hq k' (by rw [List.map_cons]; exact List.mem_cons_self _ _)
    have h2 : ∀ k ∈ t.map Prod.fst, q ≠ k := fun k hk =>
      hq k (by rw [List.map_cons]; exact List.mem_cons_of_mem _ hk)
    have h3 : ¬ k' = q := fun h => h1 h.symm
    simp [alookup, h3, ih h2]

theorem extractCompany_fields (sec : Sect) (c : IbexCompany)
    (h : extractCompany sec = some c) :
    getStr sec keyFullName = some c.short_name ∧
    c.full_name = some c.short_name ∧
    getStr sec keyTicker = some c.ticker ∧
    getStr sec keyIsin = some c.isin ∧
    ∃ v, getStr sec keyExtraId = some v ∧ c.extra_id = some v := by
  unfold extractCompany at h
  cases h1 : getStr sec keyFullName <;> rw [h1] at h
  · exact absurd h (by simp)
  · cases h2 : getStr sec keyTicker <;> rw [h2] at h
    · exact absurd h (by simp)
    · cases h3 : getStr sec keyIsin <;> rw [h3] at h
      · exact absurd h (by simp)
      · cases h4 : getStr sec keyExtraId <;> rw [h4] at h
        · exact absurd h (by simp)
        · simp only [Option.some.injEq] at h
          subst h
          simp [IbexCompany.new, IbexCompany.extra_id, h1, h2, h3, h4]

theorem extractCompany_none (sec : Sect)
    (h : getStr sec keyFullName = none ∨ getStr sec keyTicker = none ∨
      getStr sec keyIsin = none ∨ getStr sec keyExtraId = none) :
    extractCompany sec = none := by
  unfold extractCompany
  cases h1 : getStr sec keyFullName
  · rfl
  · cases h2 : getStr sec keyTicker
    · rfl
    · cases h3 : getStr sec keyIsin
      · rfl
      · cases h4 : getStr sec keyExtraId
        · rfl
        · rcases h with h | h | h | h <;> simp_all

theorem buildMap_cons_none (t : Table) (k : List Char) (sec : Sect)
    (acc : List (List Char × IbexCompany)) (h : extractCompany sec = none) :
    buildMap ((k, sec) :: t) acc = none := by
  simp [buildMap, h]

theorem buildMap_cons_some (t : Table) (k : List Char) (sec : Sect)
    (acc : List (List Char × IbexCompany)) (c : IbexCompany)
    (h : extractCompany sec = some c) :
    buildMap ((k, sec) :: t) acc = buildMap t (insertKV acc c.ticker c) := by
  simp [buildMap, h]

theorem buildMap_append (xs ys : Table) (acc : List (List Char × IbexCompany)) :
    buildMap (xs ++ ys) acc = (buildMap xs acc).bind (fun m => buildMap ys m) := by
  induction xs generalizing acc with
  | nil => simp [buildMap]
  | cons p t ih =>
    obtain ⟨k, sec⟩ := p
    cases h : extractCompany sec with
    | none => simp [buildMap, h]
    | some c => simp [buildMap, h, ih]

theorem buildMap_ok (tbl : Table)
    (hok : ∀ p ∈ tbl, extractCompany p.2 ≠ none) :
    ∀ acc, ∃ mp, buildMap tbl acc = some mp := by
  induction tbl with
  | nil => exact fun acc => ⟨acc, rfl⟩
  | cons p t ih =>
    intro acc
    obtain ⟨k, sec⟩ := p
    cases hc : extractCompany sec with
    | none => exact absurd hc (hok (k, sec) (List.mem_cons_self _ _))
    | some c =>
      have hok' : ∀ p ∈ t, extractCompany p.2 ≠ none :=
        fun p hp => hok p (List.mem_cons_of_mem _ hp)
      obtain ⟨mp, hmp⟩ := ih hok' (insertKV acc c.ticker c)
      exact ⟨mp, by rw [buildMap_cons_some t k sec acc c hc]; exact hmp⟩

theorem buildMap_none_of_bad (tbl : Table) (k : List Char) (sec : Sect)
    (hmem : (k, sec) ∈ tbl) (hbad : extractCompany sec = none) :
    ∀ acc, buildMap tbl acc = none := by
  induction tbl with
  | nil => simp at hmem
  | cons p t ih =>
    intro acc
    obtain ⟨k', sec'⟩ := p
    rcases List.mem_cons.mp hmem with hm | hm
    · have : sec' = sec := (congrArg Prod.snd hm).symm
      rw [buildMap_cons_none t k' sec' acc (this ▸ hbad)]
    · cases h : extractCompany sec' with
      | none => rw [buildMap_cons_none t k' sec' acc h]
      | some c =>
        rw [buildMap_cons_some t k' sec' acc c h]
        exact ih hm _

theorem buildMap_nodup (tbl : Table) :
    ∀ acc mp, buildMap tbl acc = some mp → (acc.map Prod.fst).Nodup →
      (mp.map Prod.fst).Nodup := by
  induction tbl with
  | nil =>
    intro acc mp h hn
    simp only [buildMap, Option.some.injEq] at h
    exact h ▸ hn
  | cons p t ih =>
    intro acc mp h hn
    obtain ⟨k, sec⟩ := p
    cases hc : extractCompany sec with
    | none => rw [buildMap_cons_none t k sec acc hc] at h; cases h
    | some c =>
      rw [buildMap_cons_some t k sec acc c hc] at h
      exact ih _ _ h (nodup_keys_insertKV acc c.ticker c hn)

theorem buildMap_keyed (tbl : Table) :
    ∀ acc mp, buildMap tbl acc = some mp → keyedByTicker acc →
      keyedByTicker mp := by
  induction tbl with
  | nil =>
    intro acc mp h hk
    simp only [buildMap, Option.some.injEq] at h
    exact h ▸ hk
  | cons p t ih =>
    intro acc mp h hk
    obtain ⟨k, sec⟩ := p
    cases hc : extractCompany sec with
    | none => rw [buildMap_cons_none t k sec acc hc] at h; cases h
    | some c =>
      rw [buildMap_cons_some t k sec acc c hc] at h
      exact ih _ _ h (keyed_insertKV acc c hk)

theorem buildMap_values (tbl : Table) :
    ∀ acc mp, buildMap tbl acc = some mp → ∀ c ∈ mp.map Prod.snd,
      c ∈ acc.map Prod.snd ∨
        ∃ k sec, (k, sec) ∈ tbl ∧ extractCompany sec = some c := by
  induction tbl with
  | nil =>
    intro acc mp h c hc
    simp only [buildMap, Option.some.injEq] at h
    exact Or.inl (h ▸ hc)
  | cons p t ih =>
    intro acc mp h c hc
    obtain ⟨k, sec⟩ := p
    cases hx : extractCompany sec with
    | none => rw [buildMap_cons_none t k sec acc hx] at h; cases h
    | some d =>
      rw [buildMap_cons_some t k sec acc d hx] at h
      rcases ih _ _ h c hc with hi | ⟨k', sec', hm, he⟩
      · rcases mem_values_insertKV acc d.ticker d c hi with hcd | hcd
        · exact Or.inr ⟨k, sec, List.mem_cons_self _ _, hcd ▸ hx⟩
        · exact Or.inl hcd
      · exact Or.inr ⟨k', sec', List.mem_cons_of_mem _ hm, he⟩

theorem buildMap_lookup_frozen (tbl : Table) (t : List Char)
    (hno : ∀ p ∈ tbl, ∀ c, extractCompany p.2 = some c → c.ticker ≠ t) :
    ∀ acc mp, buildMap tbl acc = some mp → alookup mp t = alookup acc t := by
  induction tbl with
  | nil =>
    intro acc mp h
    simp only [buildMap, Option.some.injEq] at h
    exact h ▸ rfl
  | cons p t' ih =>
    intro acc mp h
    obtain ⟨k, sec⟩ := p
    cases hx : extractCompany sec with
    | none => rw [buildMap_cons_none t' k sec acc hx] at h; cases h
    | some c =>
      rw [buildMap_cons_some t' k sec acc c hx] at h
      have hno' : ∀ p ∈ t', ∀ c, extractCompany p.2 = some c → c.ticker ≠ t :=
        fun p hp => hno p (List.mem_cons_of_mem _ hp)
      rw [ih hno' _ _ h, alookup_insertKV]
      have hne : c.ticker ≠ t := hno (k, sec) (List.mem_cons_self _ _) c hx
      exact if_neg (fun h' => hne h'.symm)

theorem load_market_inv (r : Option (List Char))
    (parse : List Char → Option Table) (m : Ibex35Market)
    (h : load_ibex35_companies r parse = .market m) :
    ∃ text tbl mp, r = some text ∧ parse text = some tbl ∧
      buildMap tbl [] = some mp ∧ m = Ibex35Market.new mp := by
  cases r with
  | none => exact absurd h (by simp [load_ibex35_companies])
  | some text =>
    cases hp : parse text with
    | none => simp [load_ibex35_companies, hp] at h
    | some tbl =>
      cases hb : buildMap tbl [] with
      | none => simp [load_ibex35_companies, hp, hb] at h
      | some mp =>
        simp only [load_ibex35_companies, hp, hb, LoadResult.market.injEq] at h
        exact ⟨text, tbl, mp, rfl, hp, hb, h.symm⟩

theorem hasSub_nil_pat (h : List Char) : hasSub h [] = true := by
  cases h <;> simp [hasSub, begWith]

/-- Concrete descriptor section for AENA with all four keys present, mirroring
the crate's test fixtures. -/
def secAENA : Sect :=
  [(keyFullName, .vstr "AENA S.A.".toList),
   (keyTicker, .vstr "AENA".toList),
   (keyIsin, .vstr "ES0105046009".toList),
   (keyExtraId, .vstr "A86212420".toList)]

/-- The company the loader builds from `secAENA` (note: short name = full
name, both sourced from `full_name`). -/
def cAENAload : IbexCompany :=
  IbexCompany.new (some "AENA S.A.".toList) "AENA S.A.".toList "AENA".toList
    "ES0105046009".toList (some "A86212420".toList)

/-- Concrete section lacking the required `isin` key. -/
def secNoIsin : Sect :=
  [(keyFullName, .vstr "Cellnex Telecom S.A.".toList),
   (keyTicker, .vstr "CLNX".toList),
   (keyExtraId, .vstr "A64907306".toList)]

/-- Concrete section lacking the required `full_name` key. -/
def secNoFullName : Sect :=
  [(keyTicker, .vstr "ACS".toList),
   (keyIsin, .vstr "ES0167050915".toList),
   (keyExtraId, .vstr "A28004885".toList)]

/-- Concrete section with the three required keys but no `extra_id` key. -/
def secNoExtra : Sect :=
  [(keyFullName, .vstr "Ferrovial S.E.".toList),
   (keyTicker, .vstr "FER".toList),
   (keyIsin, .vstr "NL0015001FS8".toList)]

/-- Hand-built companies matching the fixtures of the market unit tests
(there the short name differs from the full name). -/
def cAENA : IbexCompany :=
  IbexCompany.new (some "AENA S.A.".toList) "AENA".toList "AENA".toList
    "ES0105046009".toList (some "A86212420".toList)

def cCLNX : IbexCompany :=
  IbexCompany.new (some "Cellnex Telecom S.A.".toList) "CELLNEX".toList
    "CLNX".toList "ES0105066007".toList (some "A64907306".toList)

/-- Hand-built two-company market used to instantiate the market-level
theorems. -/
def demoMarket : Ibex35Market :=
  Ibex35Market.new [("AENA".toList, cAENA), ("CLNX".toList, cCLNX)]

/-- C3: `stock_by_name(query)` returns exactly the registered companies whose
ASCII-lowercased short name contains the ASCII-lowercased query as a
substring, as a non-empty list (`some`); it returns `none` exactly when no
company matches; and two queries equal up to letter case (i.e. with the same
lowercasing) give identical results. -/
theorem stock_by_name_spec (m : Ibex35Market) (q : List Char) :
    (∀ l, m.stock_by_name q = some l → l ≠ [] ∧
      ∀ c, c ∈ l ↔ c ∈ m.get_companies ∧
        ∃ u v, lowStr c.name = u ++ lowStr q ++ v)
    ∧ (m.stock_by_name q = none →
        ∀ c ∈ m.get_companies, ¬ ∃ u v, lowStr c.name = u ++ lowStr q ++ v)
    ∧ (∀ q', lowStr q' = lowStr q → m.stock_by_name q' = m.stock_by_name q) := by
  refine ⟨?_, ?_, ?_⟩
  · intro l hl
    unfold Ibex35Market.stock_by_name at hl
    by_cases hlen : ((m.company_map.map Prod.snd).filter
        (fun c => hasSub (lowStr c.name) (lowStr q))).length > 0
    · rw [if_pos hlen] at hl
      obtain hl' := Option.some.injEq _ _ ▸ hl
      have hfil := hl'.symm ▸ hlen
      constructor
      · intro hnil
        rw [← hl'] at hnil
        rw [hnil] at hlen
        simp at hlen
      · intro c
        rw [← hl']
        rw [List.mem_filter]
        constructor
        · rintro ⟨hmem, hsub⟩
          exact ⟨hmem, (hasSub_iff _ _).mp hsub⟩
        · rintro ⟨hmem, hsub⟩
          exact ⟨hmem, (hasSub_iff _ _).mpr hsub⟩
    · rw [if_neg hlen] at hl
      cases hl
  · intro hnone c hc hex
    unfold Ibex35Market.stock_by_name at hnone
    by_cases hlen : ((m.company_map.map Prod.snd).filter
        (fun c => hasSub (lowStr c.name) (lowStr q))).length > 0
    · rw [if_pos hlen] at hnone; cases hnone
    · have hnil : (m.company_map.map Prod.snd).filter
          (fun c => hasSub (lowStr c.name) (lowStr q)) = [] :=
        List.length_eq_zero.mp (Nat.eq_zero_of_not_pos hlen)
      have hcf : c ∈ (m.company_map.map Prod.snd).filter
          (fun c => hasSub (lowStr c.name) (lowStr q)) :=
        List.mem_filter.mpr ⟨hc, (hasSub_iff _ _).mpr hex⟩
      rw [hnil] at hcf
      cases hcf
  · intro q' hq
    unfold Ibex35Market.stock_by_name
    rw [hq]

/-- Witness for C3 at a concrete market: the queries `CELL` and `cell` give
the same result there. -/
theorem stock_by_name_spec_witness :
    demoMarket.stock_by_name "CELL".toList = demoMarket.stock_by_name "cell".toList :=
  (stock_by_name_spec demoMarket "cell".toList).2.2 "CELL".toList (by decide)

/-- C4: in a Market whose constituent mapping satisfies the HashMap
structural guarantee (distinct keys) and the data-model invariant (each
company stored under its own ticker), looking up the ticker of any
registered company returns exactly that company, and looking up any string
that is no registered company's ticker returns `none` (not an error). -/
theorem stock_by_ticker_spec (m : Ibex35Market)
    (hnd : (m.company_map.map Prod.fst).Nodup)
    (hkd : keyedByTicker m.company_map) :
    (∀ c ∈ m.get_companies, m.stock_by_ticker c.ticker = some c)
    ∧ (∀ s, (∀ c ∈ m.get_companies, s ≠ c.ticker) →
        m.stock_by_ticker s = none) := by
  constructor
  · intro c hc
    exact alookup_eq_some_of_mem m.company_map c hnd hkd hc
  · intro s hs
    apply alookup_eq_none_of_not_mem
    intro k hk
    obtain ⟨p, hp, hpk⟩ := List.mem_map.mp hk
    have := hkd p hp
    have hv : p.2 ∈ m.get_companies := List.mem_map.mpr ⟨p, hp, rfl⟩
    rw [← hpk, this]
    exact hs p.2 hv

/-- Witness for C4 at a concrete market. -/
theorem stock_by_ticker_spec_witness :
    demoMarket.stock_by_ticker cCLNX.ticker = some cCLNX ∧
    demoMarket.stock_by_ticker "SAN".toList = none :=
  ⟨(stock_by_ticker_spec demoMarket (by decide)
      (by unfold keyedByTicker; decide)).1 cCLNX (by decide),
   (stock_by_ticker_spec demoMarket (by decide)
      (by unfold keyedByTicker; decide)).2 "SAN".toList (by decide)⟩

/-- C7: an unreadable source makes the loader return the classified
open-error outcome (the `Err("Error opening the input file")` branch) and a
source that reads but does not parse as TOML makes it return the classified
parse-error outcome (`Err("Could not parse the file as a TOML table")`);
both are returned values, distinct from a panic and from a Market. -/
theorem load_error_classification (parse : List Char → Option Table)
    (text : List Char) (hbad : parse text = none) :
    load_ibex35_companies none parse = LoadResult.errOpen ∧
    load_ibex35_companies (some text) parse = LoadResult.errParse :=
  ⟨rfl, by simp [load_ibex35_companies, hbad]⟩

/-- Witness for C7 with a parser that rejects everything. -/
theorem load_error_classification_witness :
    load_ibex35_companies none (fun _ => none) = LoadResult.errOpen ∧
    load_ibex35_companies (some "not toml".toList) (fun _ => none) =
      LoadResult.errParse :=
  load_error_classification (fun _ => none) "not toml".toList rfl

/-- C9: on a market with a non-empty constituent mapping the empty query
matches every company (every string contains the empty substring), so
`stock_by_name("")` returns all of them; on a market with an empty mapping
every query returns `none`. -/
theorem stock_by_name_empty_query (m : Ibex35Market) :
    (m.company_map ≠ [] → m.stock_by_name [] = some m.get_companies)
    ∧ (m.company_map = [] → ∀ q, m.stock_by_name q = none) := by
  constructor
  · intro hne
    unfold Ibex35Market.stock_by_name
    have hfil : (m.company_map.map Prod.snd).filter
        (fun c => hasSub (lowStr c.name) (lowStr [])) =
        m.company_map.map Prod.snd := by
      apply List.filter_eq_self.mpr
      intro c _
      show hasSub (lowStr c.name) (lowStr []) = true
      simpa [lowStr] using hasSub_nil_pat (lowStr c.name)
    rw [hfil]
    have hpos : 0 < (m.company_map.map Prod.snd).length := by
      rw [List.length_map]
      exact List.length_pos.mpr hne
    rw [if_pos hpos]
    rfl
  · intro hnil q
    unfold Ibex35Market.stock_by_name
    rw [hnil]
    rfl

/-- Witness for C9: the empty query on the demo market returns everything;
any query on the empty market returns `none`. -/
theorem stock_by_name_empty_query_witness :
    demoMarket.stock_by_name [] = some demoMarket.get_companies ∧
    (Ibex35Market.new []).stock_by_name "cell".toList = none :=
  ⟨(stock_by_name_empty_query demoMarket).1 (by decide),
   (stock_by_name_empty_query (Ibex35Market.new [])).2 rfl "cell".toList⟩

/-- C10: whatever constituent mapping the caller supplies, the constructor
hard-codes the market metadata: name `BME Ibex35 Index`, open time
`08:00:00`, close time `16:30:00`, currency `euro`. -/
theorem market_metadata_fixed (mp : List (List Char × IbexCompany)) :
    (Ibex35Market.new mp).market_name = "BME Ibex35 Index".toList ∧
    (Ibex35Market.new mp).open_time = "08:00:00".toList ∧
    (Ibex35Market.new mp).close_time = "16:30:00".toList ∧
    (Ibex35Market.new mp).currency = "euro".toList :=
  ⟨rfl, rfl, rfl, rfl⟩

/-- C1 counterexample: on a descriptor whose single section lacks `isin`
(the spec's own example input) the loader does not return a classified
MissingField-style error value — it panics (`as_str().unwrap()` on a missing
key; `LoadResult.crash` models the panic), so the claimed outcome is false
at this input.  No error kind carrying a section identifier and key name
exists anywhere in the code: the error type is `&'static str` with exactly
two fixed messages, neither of which is produced here. -/
theorem load_missing_isin_crashes_concrete :
    load_ibex35_companies (some "ibex35.toml".toList)
      (fun _ => some [("CLNX".toList, secNoIsin)]) = LoadResult.crash ∧
    LoadResult.crash ≠ LoadResult.errOpen ∧
    LoadResult.crash ≠ LoadResult.errParse := by
  refine ⟨by decide, by decide, by decide⟩

/-- C1 (amended): for every descriptor source in which some section lacks
one of the required keys `full_name`, `ticker` or `isin` (or holds it as a
non-string value), the loader returns no Market at all — but it does not
return a classified MissingField error either: it panics (modelled by
`LoadResult.crash`), because field extraction uses `unwrap`. -/
theorem load_missing_required_key_crashes (text : List Char)
    (parse : List Char → Option Table) (tbl : Table) (k : List Char)
    (sec : Sect) (hp : parse text = some tbl) (hmem : (k, sec) ∈ tbl)
    (hmiss : getStr sec keyFullName = none ∨ getStr sec keyTicker = none ∨
      getStr sec keyIsin = none) :
    load_ibex35_companies (some text) parse = LoadResult.crash := by
  have hnone : extractCompany sec = none := extractCompany_none sec (by tauto)
  have hb := buildMap_none_of_bad tbl k sec hmem hnone []
  simp [load_ibex35_companies, hp, hb]

/-- Witness for the amended C1 at a section lacking `full_name`. -/
theorem load_missing_required_key_crashes_witness :
    load_ibex35_companies (some "ibex35.toml".toList)
      (fun _ => some [("ACS".toList, secNoFullName)]) = LoadResult.crash :=
  load_missing_required_key_crashes "ibex35.toml".toList
    (fun _ => some [("ACS".toList, secNoFullName)])
    [("ACS".toList, secNoFullName)] "ACS".toList secNoFullName rfl
    (by decide) (Or.inl (by decide))

/-- C2 counterexample: a section carrying the three required keys but no
`extra_id` does not load without error — the loader panics on it
(`table[key]["extra_id"]` panics on the missing key in the `toml` crate, and
`lib.rs` additionally calls `unwrap` on the result), so the claimed outcome
is false at this input. -/
theorem load_missing_extra_id_crashes_concrete :
    load_ibex35_companies (some "ibex35.toml".toList)
      (fun _ => some [("FER".toList, secNoExtra)]) = LoadResult.crash := by
  decide

/-- C2 (amended): a section in which `extra_id` is absent (or not a string)
makes the loader panic instead of loading with an absent extra id; a
section that carries `extra_id` as a string yields a Company whose
`extra_id()` is exactly that value; and at the entity level a Company
constructed without an extra identifier reports absent while one
constructed with an extra identifier reports exactly that value. -/
theorem extra_id_loader_and_entity :
    (∀ text parse tbl k sec, parse text = some tbl → (k, sec) ∈ tbl →
      getStr sec keyExtraId = none →
      load_ibex35_companies (some text) parse = LoadResult.crash)
    ∧ (∀ sec c v, extractCompany sec = some c →
        getStr sec keyExtraId = some v → c.extra_id = some v)
    ∧ (∀ f s t i, (IbexCompany.new f s t i none).extra_id = none)
    ∧ (∀ f s t i v, (IbexCompany.new f s t i (some v)).extra_id = some v) := by
  refine ⟨?_, ?_, fun f s t i => rfl, fun f s t i v => rfl⟩
  · intro text parse tbl k sec hp hmem hmiss
    have hnone : extractCompany sec = none :=
      extractCompany_none sec (Or.inr (Or.inr (Or.inr hmiss)))
    have hb := buildMap_none_of_bad tbl k sec hmem hnone []
    simp [load_ibex35_companies, hp, hb]
  · intro sec c v hex hv
    obtain ⟨_, _, _, _, v', hv', he⟩ := extractCompany_fields sec c hex
    rw [hv] at hv'
    exact (Option.some.injEq _ _ ▸ hv') ▸ he

/-- Witness for the amended C2: the loader panics on a section without
`extra_id`; the extraction keeps a present `extra_id` exactly; the entity
accessors report absent and present extra ids faithfully. -/
theorem extra_id_loader_and_entity_witness :
    load_ibex35_companies (some "ibex35.toml".toList)
      (fun _ => some [("FER2".toList, secNoExtra)]) = LoadResult.crash
    ∧ cAENAload.extra_id = some "A86212420".toList
    ∧ (IbexCompany.new none "X".toList "X".toList "I".toList none).extra_id =
        none :=
  ⟨extra_id_loader_and_entity.1 "ibex35.toml".toList
      (fun _ => some [("FER2".toList, secNoExtra)])
      [("FER2".toList, secNoExtra)] "FER2".toList secNoExtra rfl (by decide)
      (by decide),
   extra_id_loader_and_entity.2.1 secAENA cAENAload "A86212420".toList
      (by decide) (by decide),
   extra_id_loader_and_entity.2.2.1 none "X".toList "X".toList "I".toList⟩

/-- C5: every Market produced by a successful load has a duplicate-free
ticker list whose length equals the number of companies. -/
theorem load_tickers_nodup (r : Option (List Char))
    (parse : List Char → Option Table) (m : Ibex35Market)
    (h : load_ibex35_companies r parse = LoadResult.market m) :
    m.list_tickers.Nodup ∧
    m.list_tickers.length = m.get_companies.length := by
  obtain ⟨text, tbl, mp, hr, hp, hb, hm⟩ := load_market_inv r parse m h
  subst hm
  constructor
  · exact buildMap_nodup tbl [] mp hb (by simp)
  · simp [Ibex35Market.list_tickers, Ibex35Market.get_companies,
      Ibex35Market.new]

/-- Witness for C5 on a concrete successful load. -/
theorem load_tickers_nodup_witness :
    (Ibex35Market.new [("AENA".toList, cAENAload)]).list_tickers.Nodup ∧
    (Ibex35Market.new [("AENA".toList, cAENAload)]).list_tickers.length =
      (Ibex35Market.new [("AENA".toList, cAENAload)]).get_companies.length :=
  load_tickers_nodup (some "ibex35.toml".toList)
    (fun _ => some [("AENA".toList, secAENA)])
    (Ibex35Market.new [("AENA".toList, cAENAload)]) (by decide)

/-- C6: when a descriptor source contains two well-formed sections whose
`ticker` values coincide (and every section extracts successfully, with no
later section reusing that ticker), the load succeeds with no
duplicate-ticker error, and the resulting Market stores under that ticker
exactly the company built from the later-processed of the two sections. -/
theorem duplicate_ticker_last_wins (pre mid post : Table) (k1 k2 : List Char)
    (s1 s2 : Sect) (c1 c2 : IbexCompany) (text : List Char)
    (hok : ∀ p ∈ pre ++ (k1, s1) :: mid ++ (k2, s2) :: post,
      extractCompany p.2 ≠ none)
    (h1 : extractCompany s1 = some c1) (h2 : extractCompany s2 = some c2)
    (hdup : c1.ticker = c2.ticker)
    (hpost : ∀ p ∈ post, ∀ c, extractCompany p.2 = some c →
      c.ticker ≠ c2.ticker) :
    (∃ mp, buildMap (pre ++ (k1, s1) :: mid ++ (k2, s2) :: post) [] = some mp)
    ∧ ∀ mp, buildMap (pre ++ (k1, s1) :: mid ++ (k2, s2) :: post) [] = some mp →
        load_ibex35_companies (some text)
          (fun _ => some (pre ++ (k1, s1) :: mid ++ (k2, s2) :: post)) =
          LoadResult.market (Ibex35Market.new mp)
        ∧ (Ibex35Market.new mp).stock_by_ticker c2.ticker = some c2 := by
  constructor
  · exact buildMap_ok _ hok []
  · intro mp hb
    constructor
    · simp only [load_ibex35_companies]
      rw [hb]
    · have htbl : pre ++ (k1, s1) :: mid ++ (k2, s2) :: post =
          (pre ++ (k1, s1) :: mid) ++ (k2, s2) :: post := by
        rw [List.append_assoc, List.cons_append]
      rw [htbl, buildMap_append] at hb
      cases ha : buildMap (pre ++ (k1, s1) :: mid) [] with
      | none => rw [ha] at hb; cases hb
      | some acc =>
        rw [ha] at hb
        simp only [Option.some_bind] at hb
        rw [buildMap_cons_some post k2 s2 acc c2 h2] at hb
        have hlk : alookup mp c2.ticker =
            alookup (insertKV acc c2.ticker c2) c2.ticker :=
          buildMap_lookup_frozen post c2.ticker hpost _ _ hb
        show alookup mp c2.ticker = some c2
        rw [hlk, alookup_insertKV, if_pos rfl]

/-- Witness for C6: two sections (processed in this order) both carry
ticker `SAN`; the later one wins. -/
theorem duplicate_ticker_last_wins_witness :
    load_ibex35_companies (some "ibex35.toml".toList)
      (fun _ => some
        [("SAN_A".toList,
          [(keyFullName, TomlVal.vstr "Banco Santander OLD".toList),
           (keyTicker, TomlVal.vstr "SAN".toList),
           (keyIsin, TomlVal.vstr "ES0113900J30".toList),
           (keyExtraId, TomlVal.vstr "A39000013".toList)]),
         ("SAN_B".toList,
          [(keyFullName, TomlVal.vstr "Banco Santander".toList),
           (keyTicker, TomlVal.vstr "SAN".toList),
           (keyIsin, TomlVal.vstr "ES0113900J37".toList),
           (keyExtraId, TomlVal.vstr "A39000013".toList)])]) =
      LoadResult.market (Ibex35Market.new
        [("SAN".toList,
          IbexCompany.new (some "Banco Santander".toList)
            "Banco Santander".toList "SAN".toList "ES0113900J37".toList
            (some "A39000013".toList))])
    ∧ (Ibex35Market.new
        [("SAN".toList,
          IbexCompany.new (some "Banco Santander".toList)
            "Banco Santander".toList "SAN".toList "ES0113900J37".toList
            (some "A39000013".toList))]).stock_by_ticker "SAN".toList =
        some (IbexCompany.new (some "Banco Santander".toList)
          "Banco Santander".toList "SAN".toList "ES0113900J37".toList
          (some "A39000013".toList)) :=
  (duplicate_ticker_last_wins []
    [] []
    "SAN_A".toList "SAN_B".toList
    [(keyFullName, TomlVal.vstr "Banco Santander OLD".toList),
     (keyTicker, TomlVal.vstr "SAN".toList),
     (keyIsin, TomlVal.vstr "ES0113900J30".toList),
     (keyExtraId, TomlVal.vstr "A39000013".toList)]
    [(keyFullName, TomlVal.vstr "Banco Santander".toList),
     (keyTicker, TomlVal.vstr "SAN".toList),
     (keyIsin, TomlVal.vstr "ES0113900J37".toList),
     (keyExtraId, TomlVal.vstr "A39000013".toList)]
    (IbexCompany.new (some "Banco Santander OLD".toList)
      "Banco Santander OLD".toList "SAN".toList "ES0113900J30".toList
      (some "A39000013".toList))
    (IbexCompany.new (some "Banco Santander".toList)
      "Banco Santander".toList "SAN".toList "ES0113900J37".toList
      (some "A39000013".toList))
    "ibex35.toml".toList
    (by decide) (by decide) (by decide) (by decide) (by decide)).2
    [("SAN".toList,
      IbexCompany.new (some "Banco Santander".toList)
        "Banco Santander".toList "SAN".toList "ES0113900J37".toList
        (some "A39000013".toList))]
    (by decide)

/-- C8: in every successfully loaded Market, each company's short name and
full name are both sourced from the `full_name` key of its descriptor
section: `full_name()` is present and equal to `name()`, and some section
of the parsed table holds exactly that string under `full_name`. -/
theorem company_names_from_full_name (r : Option (List Char))
    (parse : List Char → Option Table) (m : Ibex35Market)
    (h : load_ibex35_companies r parse = LoadResult.market m) :
    ∀ c ∈ m.get_companies, c.full_name = some c.name ∧
      ∃ text tbl k sec, r = some text ∧ parse text = some tbl ∧
        (k, sec) ∈ tbl ∧ getStr sec keyFullName = some c.name := by
  obtain ⟨text, tbl, mp, hr, hp, hb, hm⟩ := load_market_inv r parse m h
  subst hm
  subst hr
  intro c hc
  have hc' : c ∈ mp.map Prod.snd := hc
  rcases buildMap_values tbl [] mp hb c hc' with h0 | ⟨k, sec, hmem, hex⟩
  · simp at h0
  · obtain ⟨hfn, hful, _, _, _⟩ := extractCompany_fields sec c hex
    exact ⟨hful, text, tbl, k, sec, rfl, hp, hmem, hfn⟩

/-- Witness for C8 on a concrete successful load: the AENA company's full
name equals its short name. -/
theorem company_names_from_full_name_witness :
    cAENAload.full_name = some cAENAload.name :=
  (company_names_from_full_name (some "ibex35.toml".toList)
    (fun _ => some [("AENA".toList, secAENA)])
    (Ibex35Market.new [("AENA".toList, cAENAload)]) (by decide)
    cAENAload (by decide)).1

end FinanceIbex
